import Mathlib

/-!
Verification of the qminer stream-aggregation layer
(`src/nodejs/qm/qm_nodejs_streamaggr.h`).

The header under `src/` declares the Node.js binding surface of the stream
aggregates (`TNodeJsSA`, `TNodeJsStreamAggr`) together with extensive
documentation of each aggregate type (time-series window buffer, moving
average, variance / covariance / correlation, resampler, merger) and of the
query interface (`getFloat`, `getFloatAt`, `getInFloat`, `getOutFloatVector`,
`saveJson`, `save` / `load`, ...).  The C++ implementations of the aggregates
themselves live in the qminer core, outside `src/`; where that is the case the
definitions below are modelled from the specification's words, as indicated in
each doc comment.  Timestamps are in milliseconds (`ℕ`, the code uses
`uint64`); values are modelled as rationals (`ℚ`, the code uses IEEE doubles,
whose precision is out of scope per the spec).
-/

namespace QMiner

/-- Modelled from the spec: the WindowBuffer state of a `timeSeriesWinBuf`
stream aggregate (`StreamAggr_TimeSeries`, whose implementation is in the
qminer core, not under `src/`): the window size in milliseconds and the
retained `(timestampMillis, value)` entries in arrival order. -/
structure WinBufState where
  winSizeMSecs : Nat
  entries : List (Nat × ℚ)
  deriving DecidableEq, Repr

/-- Eviction test for one entry: an entry leaves the window exactly when
`timestamp < newTimestamp - windowSizeMillis`; written hull-free over `ℕ` as
`timestamp + windowSizeMillis < newTimestamp`. -/
def evictB (w t : Nat) (e : Nat × ℚ) : Bool := decide (e.1 + w < t)

/-- Modelled from the spec: `onAdd(timestamp, value)` of the WindowBuffer
(implementation not under `src/`): insert the new pair at the tail, then evict
from the head all entries whose timestamp aged out.  Returns the new state,
the entering delta and the leaving delta. -/
def onAdd (s : WinBufState) (t : Nat) (v : ℚ) :
    WinBufState × List (Nat × ℚ) × List (Nat × ℚ) :=
  let all := s.entries ++ [(t, v)]
  (⟨s.winSizeMSecs, all.dropWhile (evictB s.winSizeMSecs t)⟩,
   [(t, v)],
   all.takeWhile (evictB s.winSizeMSecs t))

/-- One processed add event, keeping only the state. -/
def stepState (s : WinBufState) (e : Nat × ℚ) : WinBufState :=
  (onAdd s e.1 e.2).1

/-- Run a WindowBuffer of size `w` over a sequence of add events. -/
def runWinBuf (w : Nat) (es : List (Nat × ℚ)) : WinBufState :=
  es.foldl stepState ⟨w, []⟩

/-- Modelled from the spec: `getFloatVector` (implementation not under
`src/`) returns the window values in arrival order. -/
def getFloatVector (s : WinBufState) : List ℚ := s.entries.map Prod.snd

/-- Modelled from the spec: `getTimestampVector` (implementation not under
`src/`) returns the window timestamps in arrival order. -/
def getTimestampVector (s : WinBufState) : List Nat := s.entries.map Prod.fst

/-- Modelled from the spec: `getNumberOfRecords` (implementation not under
`src/`) returns the current window length. -/
def getNumberOfRecords (s : WinBufState) : Nat := s.entries.length

/-- Modelled from the spec: `getFloatAt(i)` (implementation not under `src/`)
indexes the window values in arrival order and fails with an out-of-range
error outside `[0, length)`. -/
def getFloatAt (s : WinBufState) (i : ℤ) : Except String ℚ :=
  if i < 0 then .error "index out of range"
  else
    match (getFloatVector s).get? i.toNat with
    | some v => .ok v
    | none => .error "index out of range"

/-- Modelled from the spec: `getTimestampAt(i)` (implementation not under
`src/`), the timestamp analogue of `getFloatAt`. -/
def getTimestampAt (s : WinBufState) (i : ℤ) : Except String Nat :=
  if i < 0 then .error "index out of range"
  else
    match (getTimestampVector s).get? i.toNat with
    | some v => .ok v
    | none => .error "index out of range"

/-- Entries are ordered by non-decreasing timestamp. -/
def TsSorted (l : List (Nat × ℚ)) : Prop :=
  l.Pairwise (fun a b => a.1 ≤ b.1)

instance (l : List (Nat × ℚ)) : Decidable (TsSorted l) := by
  unfold TsSorted; infer_instance

/-- On a timestamp-sorted list the head-eviction scan removes exactly the
aged-out entries: `takeWhile` of the eviction test is `filter`, and
`dropWhile` is the `filter` of its negation. -/
theorem takeWhile_dropWhile_eq_filter (w t : Nat) :
    ∀ l : List (Nat × ℚ), TsSorted l →
      l.takeWhile (evictB w t) = l.filter (evictB w t) ∧
      l.dropWhile (evictB w t) = l.filter (fun e => !(evictB w t e)) := by
  intro l
  induction l with
  | nil => intro _; constructor <;> rfl
  | cons a tl ih =>
    intro hs
    rcases List.pairwise_cons.mp hs with ⟨ha, htl⟩
    rcases ih htl with ⟨ih1, ih2⟩
    by_cases hp : evictB w t a = true
    · simp [List.takeWhile_cons, List.dropWhile_cons, List.filter_cons, hp, ih1, ih2]
    · have hall : ∀ b ∈ tl, evictB w t b = false := by
        intro b hb
        have hab := ha b hb
        have : ¬ (a.1 + w < t) := by
          simpa [evictB] using hp
        simp only [evictB, decide_eq_false_iff_not]
        omega
      have hfil : tl.filter (evictB w t) = [] := by
        rw [List.filter_eq_nil_iff]
        intro b hb
        simp [hall b hb]
      have hfil2 : tl.filter (fun e => !(evictB w t e)) = tl := by
        rw [List.filter_eq_self]
        intro b hb
        simp [hall b hb]
      simp [List.takeWhile_cons, List.dropWhile_cons, List.filter_cons, hp, hfil, hfil2]

/-- Run a WindowBuffer from an arbitrary starting state. -/
def runFrom (s : WinBufState) (es : List (Nat × ℚ)) : WinBufState :=
  es.foldl stepState s

theorem runWinBuf_eq_runFrom (w : Nat) (es : List (Nat × ℚ)) :
    runWinBuf w es = runFrom ⟨w, []⟩ es := rfl

theorem stepState_entries (s : WinBufState) (e : Nat × ℚ)
    (hs : TsSorted s.entries) (hle : ∀ p ∈ s.entries, p.1 ≤ e.1) :
    (stepState s e).winSizeMSecs = s.winSizeMSecs ∧
    TsSorted (stepState s e).entries ∧
    ∀ p ∈ (stepState s e).entries, p.1 ≤ e.1 ∧ e.1 ≤ p.1 + s.winSizeMSecs := by
  have hall : TsSorted (s.entries ++ [(e.1, e.2)]) := by
    unfold TsSorted at hs ⊢
    rw [List.pairwise_append]
    refine ⟨hs, List.pairwise_singleton _ _, ?_⟩
    intro a ha b hb
    simp only [List.mem_singleton] at hb
    subst hb
    exact hle a ha
  have hdrop := (takeWhile_dropWhile_eq_filter s.winSizeMSecs e.1
    (s.entries ++ [(e.1, e.2)]) hall).2
  have hent : (stepState s e).entries
      = (s.entries ++ [(e.1, e.2)]).filter
          (fun p => !(evictB s.winSizeMSecs e.1 p)) := by
    simpa [stepState, onAdd] using hdrop
  refine ⟨rfl, ?_, ?_⟩
  · rw [hent]
    exact List.Pairwise.filter _ hall
  · intro p hp
    rw [hent] at hp
    rcases List.mem_filter.mp hp with ⟨hmem, hkeep⟩
    have h1 : p.1 ≤ e.1 := by
      rcases List.mem_append.mp hmem with h | h
      · exact hle p h
      · simp only [List.mem_singleton] at h
        subst h
        exact le_refl _
    have h2 : ¬ (p.1 + s.winSizeMSecs < e.1) := by
      simpa [evictB] using hkeep
    exact ⟨h1, by omega⟩

theorem runFrom_inv :
    ∀ (es : List (Nat × ℚ)) (e : Nat × ℚ) (s : WinBufState),
      TsSorted s.entries → (∀ p ∈ s.entries, p.1 ≤ e.1) →
      (e :: es).Pairwise (fun a b => a.1 ≤ b.1) →
      (runFrom s (e :: es)).winSizeMSecs = s.winSizeMSecs ∧
      TsSorted (runFrom s (e :: es)).entries ∧
      ∀ p ∈ (runFrom s (e :: es)).entries,
        p.1 ≤ ((e :: es).getLast (List.cons_ne_nil e es)).1 ∧
        ((e :: es).getLast (List.cons_ne_nil e es)).1 ≤ p.1 + s.winSizeMSecs := by
  intro es
  induction es with
  | nil =>
    intro e s hs hle _
    have h := stepState_entries s e hs hle
    simpa [runFrom, List.getLast] using h
  | cons e' es' ih =>
    intro e s hs hle hord
    have hstep := stepState_entries s e hs hle
    rcases hstep with ⟨hw, hsort, hmem⟩
    have hee' : e.1 ≤ e'.1 := by
      rcases List.pairwise_cons.mp hord with ⟨h1, _⟩
      exact h1 e' (List.mem_cons_self e' es')
    have hle' : ∀ p ∈ (stepState s e).entries, p.1 ≤ e'.1 :=
      fun p hp => le_trans (hmem p hp).1 hee'
    have hord' : (e' :: es').Pairwise (fun a b => a.1 ≤ b.1) :=
      (List.pairwise_cons.mp hord).2
    have hrun : runFrom s (e :: e' :: es') = runFrom (stepState s e) (e' :: es') := rfl
    have := ih e' (stepState s e) hsort hle' hord'
    rw [hrun]
    rw [List.getLast_cons (List.cons_ne_nil e' es')]
    rw [hw] at this
    exact this

/-- C1: for every non-decreasing sequence of add events on a WindowBuffer of
size `w`, after processing the final add event with timestamp `T` every
retained entry satisfies `T - timestamp ≤ w` (equivalently `T ≤ timestamp + w`
over `ℕ`), and the retained entries are ordered by non-decreasing
timestamp. -/
theorem winBuf_window_invariant (w : Nat) (e : Nat × ℚ) (es : List (Nat × ℚ))
    (hord : (e :: es).Pairwise (fun a b => a.1 ≤ b.1)) :
    TsSorted (runWinBuf w (e :: es)).entries ∧
    ∀ p ∈ (runWinBuf w (e :: es)).entries,
      ((e :: es).getLast (List.cons_ne_nil e es)).1 - p.1 ≤ w ∧
      ((e :: es).getLast (List.cons_ne_nil e es)).1 ≤ p.1 + w := by
  have h := runFrom_inv es e ⟨w, []⟩ (by simp [TsSorted]) (by simp) hord
  rw [runWinBuf_eq_runFrom]
  rcases h with ⟨_, hsort, hmem⟩
  refine ⟨hsort, ?_⟩
  intro p hp
  have h2 : ((e :: es).getLast (List.cons_ne_nil e es)).1 ≤ p.1 + w :=
    (hmem p hp).2
  exact ⟨by omega, h2⟩

/-- Witness for `winBuf_window_invariant` at the spec's Scenario A inputs. -/
theorem winBuf_window_invariant_witness :
    (((0, (10 : ℚ)) :: [(1000, (20 : ℚ)), (2500, (30 : ℚ))]).Pairwise
        (fun a b => a.1 ≤ b.1)) ∧
    (TsSorted (runWinBuf 2000
        ((0, (10 : ℚ)) :: [(1000, (20 : ℚ)), (2500, (30 : ℚ))])).entries ∧
      ∀ p ∈ (runWinBuf 2000
          ((0, (10 : ℚ)) :: [(1000, (20 : ℚ)), (2500, (30 : ℚ))])).entries,
        (((0, (10 : ℚ)) :: [(1000, (20 : ℚ)), (2500, (30 : ℚ))]).getLast
            (List.cons_ne_nil _ _)).1 - p.1 ≤ 2000 ∧
        (((0, (10 : ℚ)) :: [(1000, (20 : ℚ)), (2500, (30 : ℚ))]).getLast
            (List.cons_ne_nil _ _)).1 ≤ p.1 + 2000) :=
  ⟨by decide,
   winBuf_window_invariant 2000 (0, 10) [(1000, 20), (2500, 30)] (by decide)⟩

/-- C2: `onAdd` inserts the new pair at the tail, evicts exactly the entries
with `timestamp < newTimestamp - windowSizeMillis`, the entering delta is
exactly the new entry and the leaving delta is exactly the evicted entries;
and the spec's Scenario A (winsize 2000, inputs 10@0, 20@1000, 30@2500) ends
with window `[(20,1000),(30,2500)]`, entering `[(30,2500)]`, leaving
`[(10,0)]`. -/
theorem onAdd_deltas (s : WinBufState) (t : Nat) (v : ℚ)
    (hs : TsSorted s.entries) (hle : ∀ p ∈ s.entries, p.1 ≤ t) :
    (onAdd s t v).1.entries
        = s.entries.filter (fun p => !(evictB s.winSizeMSecs t p)) ++ [(t, v)] ∧
    (onAdd s t v).2.1 = [(t, v)] ∧
    (onAdd s t v).2.2 = s.entries.filter (evictB s.winSizeMSecs t) ∧
    (runWinBuf 2000 [(0, 10), (1000, 20), (2500, 30)]).entries
        = [(1000, 20), (2500, 30)] ∧
    (onAdd (runWinBuf 2000 [(0, 10), (1000, 20)]) 2500 30).2.1 = [(2500, 30)] ∧
    (onAdd (runWinBuf 2000 [(0, 10), (1000, 20)]) 2500 30).2.2 = [(0, 10)] := by
  have hall : TsSorted (s.entries ++ [(t, v)]) := by
    unfold TsSorted at hs ⊢
    rw [List.pairwise_append]
    refine ⟨hs, List.pairwise_singleton _ _, ?_⟩
    intro a ha b hb
    simp only [List.mem_singleton] at hb
    subst hb
    exact hle a ha
  have h := takeWhile_dropWhile_eq_filter s.winSizeMSecs t (s.entries ++ [(t, v)]) hall
  have hnew : evictB s.winSizeMSecs t (t, v) = false := by
    simp only [evictB, decide_eq_false_iff_not]
    omega
  refine ⟨?_, rfl, ?_, by decide, by decide, by decide⟩
  · have := h.2
    simp only [onAdd]
    rw [this, List.filter_append]
    simp [hnew]
  · have := h.1
    simp only [onAdd]
    rw [this, List.filter_append]
    simp [hnew]

/-- Witness for `onAdd_deltas`: the third add of Scenario A applied to the
state reached after the first two adds. -/
theorem onAdd_deltas_witness :
    (TsSorted (WinBufState.mk 2000 [(0, (10 : ℚ)), (1000, 20)]).entries ∧
      ∀ p ∈ (WinBufState.mk 2000 [(0, (10 : ℚ)), (1000, 20)]).entries,
        p.1 ≤ 2500) ∧
    ((onAdd (WinBufState.mk 2000 [(0, (10 : ℚ)), (1000, 20)]) 2500 30).1.entries
        = (WinBufState.mk 2000 [(0, (10 : ℚ)), (1000, 20)]).entries.filter
            (fun p => !(evictB 2000 2500 p)) ++ [(2500, 30)] ∧
      (onAdd (WinBufState.mk 2000 [(0, (10 : ℚ)), (1000, 20)]) 2500 30).2.1
        = [(2500, 30)] ∧
      (onAdd (WinBufState.mk 2000 [(0, (10 : ℚ)), (1000, 20)]) 2500 30).2.2
        = (WinBufState.mk 2000 [(0, (10 : ℚ)), (1000, 20)]).entries.filter
            (evictB 2000 2500) ∧
      (runWinBuf 2000 [(0, 10), (1000, 20), (2500, 30)]).entries
          = [(1000, 20), (2500, 30)] ∧
      (onAdd (runWinBuf 2000 [(0, 10), (1000, 20)]) 2500 30).2.1 = [(2500, 30)] ∧
      (onAdd (runWinBuf 2000 [(0, 10), (1000, 20)]) 2500 30).2.2 = [(0, 10)]) :=
  ⟨⟨by decide, by decide⟩,
   onAdd_deltas (WinBufState.mk 2000 [(0, 10), (1000, 20)]) 2500 30
     (by decide) (by decide)⟩

/-- C3: `getFloatAt(i)` / `getTimestampAt(i)` return the `i`-th element of the
window in arrival order exactly when `0 ≤ i < length`, and fail with an
out-of-range error (never a value or a default) for every `i` outside
`[0, length)`. -/
theorem getAt_range (s : WinBufState) (i : ℤ) :
    (∀ x, getFloatAt s i = Except.ok x ↔
      0 ≤ i ∧ (getFloatVector s).get? i.toNat = some x) ∧
    ((∃ msg, getFloatAt s i = Except.error msg) ↔
      i < 0 ∨ (getNumberOfRecords s : ℤ) ≤ i) ∧
    (∀ x, getTimestampAt s i = Except.ok x ↔
      0 ≤ i ∧ (getTimestampVector s).get? i.toNat = some x) ∧
    ((∃ msg, getTimestampAt s i = Except.error msg) ↔
      i < 0 ∨ (getNumberOfRecords s : ℤ) ≤ i) := by
  have hlenF : (getFloatVector s).length = getNumberOfRecords s := by
    simp [getFloatVector, getNumberOfRecords]
  have hlenT : (getTimestampVector s).length = getNumberOfRecords s := by
    simp [getTimestampVector, getNumberOfRecords]
  refine ⟨?_, ?_, ?_, ?_⟩
  · intro x
    unfold getFloatAt
    by_cases hneg : i < 0
    · simp only [if_pos hneg]
      constructor
      · intro h; cases h
      · rintro ⟨h0, _⟩; omega
    · simp only [if_neg hneg]
      rcases hget : (getFloatVector s).get? i.toNat with _ | v
      · constructor
        · intro h; cases h
        · rintro ⟨_, h⟩; cases h
      · constructor
        · intro h
          cases h
          exact ⟨by omega, rfl⟩
        · rintro ⟨_, h⟩
          cases h
          rfl
  · unfold getFloatAt
    by_cases hneg : i < 0
    · simp only [if_pos hneg]
      exact ⟨fun _ => Or.inl hneg, fun _ => ⟨_, rfl⟩⟩
    · simp only [if_neg hneg]
      rcases hget : (getFloatVector s).get? i.toNat with _ | v
      · have hlen : (getFloatVector s).length ≤ i.toNat := List.get?_eq_none.mp hget
        rw [hlenF] at hlen
        constructor
        · intro _; right; omega
        · intro _; exact ⟨_, rfl⟩
      · have hlen : i.toNat < (getFloatVector s).length := by
          by_contra hc
          rw [List.get?_eq_none.mpr (by omega)] at hget
          cases hget
        rw [hlenF] at hlen
        constructor
        · rintro ⟨msg, h⟩; cases h
        · intro h; omega
  · intro x
    unfold getTimestampAt
    by_cases hneg : i < 0
    · simp only [if_pos hneg]
      constructor
      · intro h; cases h
      · rintro ⟨h0, _⟩; omega
    · simp only [if_neg hneg]
      rcases hget : (getTimestampVector s).get? i.toNat with _ | v
      · constructor
        · intro h; cases h
        · rintro ⟨_, h⟩; cases h
      · constructor
        · intro h
          cases h
          exact ⟨by omega, rfl⟩
        · rintro ⟨_, h⟩
          cases h
          rfl
  · unfold getTimestampAt
    by_cases hneg : i < 0
    · simp only [if_pos hneg]
      exact ⟨fun _ => Or.inl hneg, fun _ => ⟨_, rfl⟩⟩
    · simp only [if_neg hneg]
      rcases hget : (getTimestampVector s).get? i.toNat with _ | v
      · have hlen : (getTimestampVector s).length ≤ i.toNat := List.get?_eq_none.mp hget
        rw [hlenT] at hlen
        constructor
        · intro _; right; omega
        · intro _; exact ⟨_, rfl⟩
      · have hlen : i.toNat < (getTimestampVector s).length := by
          by_contra hc
          rw [List.get?_eq_none.mpr (by omega)] at hget
          cases hget
        rw [hlenT] at hlen
        constructor
        · rintro ⟨msg, h⟩; cases h
        · intro h; omega

/-- Modelled from the spec: the running state of a `StreamAggr_MovingAverage`
(`type: 'ma'`, implementation not under `src/`): the window sum and count,
maintained incrementally from the upstream entering / leaving deltas. -/
structure MaState where
  maSum : ℚ
  maCount : Nat
  deriving DecidableEq, Repr

/-- Modelled from the spec: incremental MovingAverage update from the delta
channel; it never rescans the window, it only adds entering values and
subtracts leaving values. -/
def maOnStep (m : MaState) (entering leaving : List (Nat × ℚ)) : MaState :=
  ⟨m.maSum + (entering.map Prod.snd).sum - (leaving.map Prod.snd).sum,
   m.maCount + entering.length - leaving.length⟩

/-- Modelled from the spec: `getFloat` of the MovingAverage, `sum / count`,
defined as 0 when the count is 0. -/
def maGetFloat (m : MaState) : ℚ :=
  if m.maCount = 0 then 0 else m.maSum / (m.maCount : ℚ)

/-- One event processed by the WindowBuffer with the MovingAverage consuming
its deltas in lock-step. -/
def maStep (p : WinBufState × MaState) (e : Nat × ℚ) : WinBufState × MaState :=
  ((onAdd p.1 e.1 e.2).1,
   maOnStep p.2 (onAdd p.1 e.1 e.2).2.1 (onAdd p.1 e.1 e.2).2.2)

/-- Run WindowBuffer (size `w`) and MovingAverage together over the events. -/
def runMa (w : Nat) (es : List (Nat × ℚ)) : WinBufState × MaState :=
  es.foldl maStep (⟨w, []⟩, ⟨0, 0⟩)

theorem maStep_inv (p : WinBufState × MaState) (e : Nat × ℚ)
    (h1 : p.2.maSum = (p.1.entries.map Prod.snd).sum)
    (h2 : p.2.maCount = p.1.entries.length) :
    (maStep p e).2.maSum = ((maStep p e).1.entries.map Prod.snd).sum ∧
    (maStep p e).2.maCount = (maStep p e).1.entries.length := by
  have hsplit :=
    List.takeWhile_append_dropWhile (evictB p.1.winSizeMSecs e.1)
      (p.1.entries ++ [(e.1, e.2)])
  have hsum := congrArg (fun l : List (Nat × ℚ) => (l.map Prod.snd).sum) hsplit
  have hlen := congrArg List.length hsplit
  simp only [List.map_append, List.sum_append, List.map_cons, List.map_nil,
    List.sum_cons, List.sum_nil, add_zero] at hsum
  simp only [List.length_append, List.length_cons, List.length_nil] at hlen
  constructor
  · simp only [maStep, maOnStep, onAdd]
    rw [h1]
    simp only [List.map_cons, List.map_nil, List.sum_cons, List.sum_nil]
    linarith
  · simp only [maStep, maOnStep, onAdd]
    rw [h2]
    simp only [List.length_cons, List.length_nil]
    omega

theorem runMaFrom_inv :
    ∀ (es : List (Nat × ℚ)) (p : WinBufState × MaState),
      p.2.maSum = (p.1.entries.map Prod.snd).sum →
      p.2.maCount = p.1.entries.length →
      (es.foldl maStep p).2.maSum
          = ((es.foldl maStep p).1.entries.map Prod.snd).sum ∧
      (es.foldl maStep p).2.maCount = (es.foldl maStep p).1.entries.length := by
  intro es
  induction es with
  | nil => intro p h1 h2; exact ⟨h1, h2⟩
  | cons e es' ih =>
    intro p h1 h2
    have h := maStep_inv p e h1 h2
    exact ih (maStep p e) h.1 h.2

/-- C4: the MovingAverage's `getFloat` equals the sum of the values currently
in the upstream window divided by their count — both maintained purely
incrementally from the entering / leaving deltas — and equals 0 when the
count is 0; for the window of Scenario A it returns `(20+30)/2 = 25` after
the third add. -/
theorem ma_getFloat_correct (w : Nat) (es : List (Nat × ℚ)) :
    (runMa w es).2.maSum = ((runMa w es).1.entries.map Prod.snd).sum ∧
    (runMa w es).2.maCount = (runMa w es).1.entries.length ∧
    maGetFloat (runMa w es).2
        = (if (runMa w es).1.entries.length = 0 then 0
           else ((runMa w es).1.entries.map Prod.snd).sum
              / ((runMa w es).1.entries.length : ℚ)) ∧
    maGetFloat (runMa 2000 [(0, 10), (1000, 20), (2500, 30)]).2 = 25 := by
  have h := runMaFrom_inv es (⟨w, []⟩, ⟨0, 0⟩) (by simp) (by simp)
  have h1 : (runMa w es).2.maSum = ((runMa w es).1.entries.map Prod.snd).sum := h.1
  have h2 : (runMa w es).2.maCount = (runMa w es).1.entries.length := h.2
  refine ⟨h1, h2, ?_, ?_⟩
  · unfold maGetFloat
    rw [h1, h2]
  · norm_num [runMa, maStep, maOnStep, onAdd, evictB, maGetFloat]

/-- Modelled from the spec: arithmetic mean of the values of a window. -/
def meanOf (l : List ℚ) : ℚ := l.sum / (l.length : ℚ)

/-- Modelled from the spec: the sample variance a `variance` aggregate
(`StreamAggr_MovingVariance`, implementation not under `src/`) maintains over
its upstream window; it is a "no value" 0 for fewer than 2 samples. -/
def varOf (l : List ℚ) : ℚ :=
  if l.length ≤ 1 then 0
  else ((l.map (fun x => (x - meanOf l) ^ 2)).sum) / ((l.length : ℚ) - 1)

/-- Modelled from the spec: the sample covariance a `covariance` aggregate
maintains over two time-aligned upstream windows, given here as the shared
pair window. -/
def covOf (ps : List (ℚ × ℚ)) : ℚ :=
  if ps.length ≤ 1 then 0
  else ((ps.map (fun p => (p.1 - meanOf (ps.map Prod.fst)) *
          (p.2 - meanOf (ps.map Prod.snd)))).sum) / ((ps.length : ℚ) - 1)

/-- Modelled from the spec: the `correlation` aggregate
(`StreamAggr_MovingCorrelation`, implementation not under `src/`) is a pure
read-time combination of its three upstream reads (`inAggrCov`, `inAggrVarX`,
`inAggrVarY`); it reports "undefined" whenever either upstream variance is
non-positive.  It keeps no incremental state of its own: this check and the
bound below depend only on the three upstream values. -/
def corrUndefB (varX varY : ℚ) : Bool := decide (varX ≤ 0) || decide (varY ≤ 0)

/-- Cauchy-Schwarz inequality for a list of pairs of rationals. -/
theorem list_cauchy_schwarz (l : List (ℚ × ℚ)) :
    ((l.map (fun p => p.1 * p.2)).sum) ^ 2
      ≤ ((l.map (fun p => p.1 ^ 2)).sum) * ((l.map (fun p => p.2 ^ 2)).sum) := by
  have key : ∀ f : ℚ × ℚ → ℚ,
      (l.map f).sum = ∑ i : Fin l.length, f (l.get i) := by
    intro f
    conv_lhs => rw [← List.ofFn_get l]
    rw [List.map_ofFn, List.sum_ofFn]
    rfl
  rw [key, key, key]
  exact Finset.sum_mul_sq_le_sq_mul_sq Finset.univ _ _

/-- C5: whenever the correlation is not reported undefined (both upstream
variances positive), the read-time combination `cov / sqrt(varX * varY)` lies
in `[-1, 1]`: equivalently `cov² ≤ varX · varY`, proved from the shared
pair window by Cauchy-Schwarz. -/
theorem correlation_bounds (ps : List (ℚ × ℚ))
    (hdef : corrUndefB (varOf (ps.map Prod.fst)) (varOf (ps.map Prod.snd))
      = false) :
    0 < varOf (ps.map Prod.fst) ∧ 0 < varOf (ps.map Prod.snd) ∧
    (covOf ps) ^ 2 ≤ varOf (ps.map Prod.fst) * varOf (ps.map Prod.snd) ∧
    |((covOf ps : ℚ) : ℝ) /
        Real.sqrt (((varOf (ps.map Prod.fst) : ℚ) : ℝ) *
          ((varOf (ps.map Prod.snd) : ℚ) : ℝ))| ≤ 1 := by
  have h0 : 0 < varOf (ps.map Prod.fst) ∧ 0 < varOf (ps.map Prod.snd) := by
    simpa [corrUndefB] using hdef
  obtain ⟨hX, hY⟩ := h0
  have hn : ¬ ps.length ≤ 1 := by
    intro hle
    have : varOf (ps.map Prod.fst) = 0 := by
      unfold varOf
      rw [if_pos (by simpa using hle)]
    rw [this] at hX
    exact lt_irrefl 0 hX
  have hn1 : (0 : ℚ) < (ps.length : ℚ) - 1 := by
    have : 2 ≤ ps.length := by omega
    have h2 : (2 : ℚ) ≤ (ps.length : ℚ) := by exact_mod_cast this
    linarith
  set mx := meanOf (ps.map Prod.fst) with hmx
  set my := meanOf (ps.map Prod.snd) with hmy
  have hcs := list_cauchy_schwarz (ps.map (fun p => (p.1 - mx, p.2 - my)))
  rw [List.map_map, List.map_map, List.map_map] at hcs
  have hSxy : ((ps.map (fun p => (p.1 - mx) * (p.2 - my))).sum) ^ 2
      ≤ ((ps.map (fun p => (p.1 - mx) ^ 2)).sum) *
        ((ps.map (fun p => (p.2 - my) ^ 2)).sum) := hcs
  have hvx : varOf (ps.map Prod.fst)
      = ((ps.map (fun p => (p.1 - mx) ^ 2)).sum) / ((ps.length : ℚ) - 1) := by
    unfold varOf
    rw [if_neg (by simpa using hn)]
    simp only [List.map_map, List.length_map]
    rfl
  have hvy : varOf (ps.map Prod.snd)
      = ((ps.map (fun p => (p.2 - my) ^ 2)).sum) / ((ps.length : ℚ) - 1) := by
    unfold varOf
    rw [if_neg (by simpa using hn)]
    simp only [List.map_map, List.length_map]
    rfl
  have hcv : covOf ps
      = ((ps.map (fun p => (p.1 - mx) * (p.2 - my))).sum) / ((ps.length : ℚ) - 1) := by
    unfold covOf
    rw [if_neg hn]
  have hsq : (covOf ps) ^ 2
      ≤ varOf (ps.map Prod.fst) * varOf (ps.map Prod.snd) := by
    rw [hcv, hvx, hvy, div_pow, div_mul_div_comm, ← pow_two]
    exact (div_le_div_iff_of_pos_right (pow_pos hn1 2)).mpr hSxy
  refine ⟨hX, hY, hsq, ?_⟩
  have hsqR : (((covOf ps : ℚ) : ℝ)) ^ 2
      ≤ ((varOf (ps.map Prod.fst) : ℚ) : ℝ) * ((varOf (ps.map Prod.snd) : ℚ) : ℝ) := by
    exact_mod_cast hsq
  have habs : |((covOf ps : ℚ) : ℝ)|
      ≤ Real.sqrt (((varOf (ps.map Prod.fst) : ℚ) : ℝ) *
          ((varOf (ps.map Prod.snd) : ℚ) : ℝ)) :=
    Real.abs_le_sqrt hsqR
  have hpos : (0 : ℝ) < ((varOf (ps.map Prod.fst) : ℚ) : ℝ) *
      ((varOf (ps.map Prod.snd) : ℚ) : ℝ) := by
    have hx : (0 : ℝ) < ((varOf (ps.map Prod.fst) : ℚ) : ℝ) := by exact_mod_cast hX
    have hy : (0 : ℝ) < ((varOf (ps.map Prod.snd) : ℚ) : ℝ) := by exact_mod_cast hY
    positivity
  have hsqrtpos : (0 : ℝ) < Real.sqrt (((varOf (ps.map Prod.fst) : ℚ) : ℝ) *
      ((varOf (ps.map Prod.snd) : ℚ) : ℝ)) := Real.sqrt_pos.mpr hpos
  rw [abs_div, abs_of_nonneg (Real.sqrt_nonneg _)]
  exact (div_le_one hsqrtpos).mpr habs

/-- Witness for `correlation_bounds` on the perfectly linearly dependent
window `y = 2x` over three points. -/
theorem correlation_bounds_witness :
    (corrUndefB
        (varOf (([((1 : ℚ), (2 : ℚ)), (2, 4), (3, 6)]).map Prod.fst))
        (varOf (([((1 : ℚ), (2 : ℚ)), (2, 4), (3, 6)]).map Prod.snd)) = false) ∧
    (0 < varOf (([((1 : ℚ), (2 : ℚ)), (2, 4), (3, 6)]).map Prod.fst) ∧
      0 < varOf (([((1 : ℚ), (2 : ℚ)), (2, 4), (3, 6)]).map Prod.snd) ∧
      (covOf [((1 : ℚ), (2 : ℚ)), (2, 4), (3, 6)]) ^ 2
        ≤ varOf (([((1 : ℚ), (2 : ℚ)), (2, 4), (3, 6)]).map Prod.fst) *
          varOf (([((1 : ℚ), (2 : ℚ)), (2, 4), (3, 6)]).map Prod.snd) ∧
      |((covOf [((1 : ℚ), (2 : ℚ)), (2, 4), (3, 6)] : ℚ) : ℝ) /
          Real.sqrt
            (((varOf (([((1 : ℚ), (2 : ℚ)), (2, 4), (3, 6)]).map Prod.fst) : ℚ) : ℝ) *
              ((varOf (([((1 : ℚ), (2 : ℚ)), (2, 4), (3, 6)]).map Prod.snd) : ℚ) : ℝ))| ≤ 1) :=
  ⟨by norm_num [corrUndefB, varOf, meanOf],
   correlation_bounds [((1 : ℚ), (2 : ℚ)), (2, 4), (3, 6)]
     (by norm_num [corrUndefB, varOf, meanOf])⟩

/-- Modelled from the spec: the state of a `resampler` aggregate
(`StreamAggr_Resampler`, implementation not under `src/`) for one configured
field with `previous` interpolation: the emission interval in milliseconds,
the last observed input `(timestamp, value)`, and the next scheduled emission
timestamp (meaningful once the first input has been seen). -/
structure ResamplerState where
  interval : Nat
  lastTmVal : Option (Nat × ℚ)
  nextEmit : Nat
  deriving DecidableEq, Repr

/-- Modelled from the spec: the resampler processing one input record.  The
first input only initialises the interpolation context and schedules the
first tick one interval later; a later input first emits one output record
per scheduled tick timestamp up to the input's timestamp, each holding the
previously observed value (`previous` interpolation uses only data strictly
before the tick), and only then incorporates the new input. -/
def resamplerOnAdd (s : ResamplerState) (t : Nat) (v : ℚ) :
    ResamplerState × List (Nat × ℚ) :=
  match s.lastTmVal with
  | none => (⟨s.interval, some (t, v), t + s.interval⟩, [])
  | some (_, v0) =>
      if t < s.nextEmit then (⟨s.interval, some (t, v), s.nextEmit⟩, [])
      else
        let k := (t - s.nextEmit) / s.interval + 1
        (⟨s.interval, some (t, v), s.nextEmit + k * s.interval⟩,
         (List.range k).map (fun i => (s.nextEmit + i * s.interval, v0)))

/-- One resampler step, accumulating the emitted records. -/
def resamplerStep (p : ResamplerState × List (Nat × ℚ)) (e : Nat × ℚ) :
    ResamplerState × List (Nat × ℚ) :=
  ((resamplerOnAdd p.1 e.1 e.2).1, p.2 ++ (resamplerOnAdd p.1 e.1 e.2).2)

/-- Run a resampler with the given interval over an input stream, collecting
every emitted output record. -/
def runResampler (interval : Nat) (es : List (Nat × ℚ)) :
    ResamplerState × List (Nat × ℚ) :=
  es.foldl resamplerStep (⟨interval, none, 0⟩, [])

/-- Resampler invariant relative to the first input timestamp `t0`: an input
has been seen, the next scheduled tick is strictly beyond the last input, and
every emitted record so far has a timestamp in `(t0, last input]`. -/
def ResInv (t0 : Nat) (p : ResamplerState × List (Nat × ℚ)) : Prop :=
  ∃ tl vl, p.1.lastTmVal = some (tl, vl) ∧ t0 ≤ tl ∧ tl < p.1.nextEmit ∧
    ∀ q ∈ p.2, t0 < q.1 ∧ q.1 ≤ tl

theorem resamplerStep_inv (t0 : Nat) (p : ResamplerState × List (Nat × ℚ))
    (e : Nat × ℚ) (hiv : 0 < p.1.interval) (hinv : ResInv t0 p)
    (hord : ∀ tl vl, p.1.lastTmVal = some (tl, vl) → tl ≤ e.1) :
    (resamplerStep p e).1.interval = p.1.interval ∧
    (resamplerStep p e).1.lastTmVal = some (e.1, e.2) ∧
    ResInv t0 (resamplerStep p e) := by
  obtain ⟨tl, vl, hlast, ht0, htl, hout⟩ := hinv
  have htle : tl ≤ e.1 := hord tl vl hlast
  by_cases hlt : e.1 < p.1.nextEmit
  · have hstep : resamplerStep p e
        = (⟨p.1.interval, some (e.1, e.2), p.1.nextEmit⟩, p.2 ++ []) := by
      simp [resamplerStep, resamplerOnAdd, hlast, hlt]
    rw [hstep]
    refine ⟨rfl, rfl, e.1, e.2, rfl, le_trans ht0 htle, hlt, ?_⟩
    intro q hq
    rw [List.append_nil] at hq
    exact ⟨(hout q hq).1, le_trans (hout q hq).2 htle⟩
  · have hne : p.1.nextEmit ≤ e.1 := le_of_not_lt hlt
    have hstep : resamplerStep p e
        = (⟨p.1.interval, some (e.1, e.2),
             p.1.nextEmit + ((e.1 - p.1.nextEmit) / p.1.interval + 1) * p.1.interval⟩,
           p.2 ++ (List.range ((e.1 - p.1.nextEmit) / p.1.interval + 1)).map
             (fun i => (p.1.nextEmit + i * p.1.interval, vl))) := by
      simp [resamplerStep, resamplerOnAdd, hlast, hlt]
    rw [hstep]
    have hd : p.1.nextEmit + (e.1 - p.1.nextEmit) = e.1 := by omega
    have hklt : e.1 < p.1.nextEmit +
        ((e.1 - p.1.nextEmit) / p.1.interval + 1) * p.1.interval := by
      have h2 : (e.1 - p.1.nextEmit) / p.1.interval * p.1.interval
            + (e.1 - p.1.nextEmit) % p.1.interval = e.1 - p.1.nextEmit :=
        Nat.div_add_mod' (e.1 - p.1.nextEmit) p.1.interval
      have h3 : (e.1 - p.1.nextEmit) % p.1.interval < p.1.interval :=
        Nat.mod_lt _ hiv
      have h4 : e.1 - p.1.nextEmit
          < ((e.1 - p.1.nextEmit) / p.1.interval + 1) * p.1.interval := by
        have h5 : ((e.1 - p.1.nextEmit) / p.1.interval + 1) * p.1.interval
            = (e.1 - p.1.nextEmit) / p.1.interval * p.1.interval + p.1.interval := by
          ring
        rw [h5]
        omega
      omega
    refine ⟨rfl, rfl, e.1, e.2, rfl, le_trans ht0 htle, hklt, ?_⟩
    intro q hq
    rcases List.mem_append.mp hq with hql | hqr
    · exact ⟨(hout q hql).1, le_trans (hout q hql).2 htle⟩
    · rcases List.mem_map.mp hqr with ⟨i, hi, hqe⟩
      have hik : i < (e.1 - p.1.nextEmit) / p.1.interval + 1 := List.mem_range.mp hi
      have hq1 : q.1 = p.1.nextEmit + i * p.1.interval := by rw [← hqe]
      constructor
      · rw [hq1]
        omega
      · rw [hq1]
        have h6 : i * p.1.interval
            ≤ (e.1 - p.1.nextEmit) / p.1.interval * p.1.interval :=
          Nat.mul_le_mul_right _ (by omega)
        have h7 : (e.1 - p.1.nextEmit) / p.1.interval * p.1.interval
            ≤ e.1 - p.1.nextEmit := Nat.div_mul_le_self _ _
        omega

theorem runResFrom_inv (t0 : Nat) :
    ∀ (es : List (Nat × ℚ)) (p : ResamplerState × List (Nat × ℚ)),
      0 < p.1.interval → ResInv t0 p →
      es.Pairwise (fun a b => a.1 ≤ b.1) →
      (∀ tl vl, p.1.lastTmVal = some (tl, vl) → ∀ x ∈ es, tl ≤ x.1) →
      ResInv t0 (es.foldl resamplerStep p) := by
  intro es
  induction es with
  | nil => intro p _ hinv _ _; exact hinv
  | cons e es' ih =>
    intro p hiv hinv hord hbound
    have hstep := resamplerStep_inv t0 p e hiv hinv
      (fun tl vl hl => hbound tl vl hl e (List.mem_cons_self e es'))
    rcases hstep with ⟨hivkeep, hlast', hinv'⟩
    have hiv' : 0 < (resamplerStep p e).1.interval := by rw [hivkeep]; exact hiv
    have hord' : es'.Pairwise (fun a b => a.1 ≤ b.1) :=
      (List.pairwise_cons.mp hord).2
    have hbound' : ∀ tl vl, (resamplerStep p e).1.lastTmVal = some (tl, vl) →
        ∀ x ∈ es', tl ≤ x.1 := by
      intro tl vl hl x hx
      rw [hlast'] at hl
      cases hl
      exact (List.pairwise_cons.mp hord).1 x hx
    exact ih (resamplerStep p e) hiv' hinv' hord' hbound'

theorem foldl_lastTm :
    ∀ (es : List (Nat × ℚ)) (p : ResamplerState × List (Nat × ℚ))
      (hne : es ≠ []),
      ∃ vl, (es.foldl resamplerStep p).1.lastTmVal
        = some ((es.getLast hne).1, vl) := by
  intro es
  induction es with
  | nil => intro p hne; exact absurd rfl hne
  | cons e es' ih =>
    intro p _
    cases es' with
    | nil =>
      refine ⟨e.2, ?_⟩
      simp only [List.foldl_cons, List.foldl_nil, List.getLast_singleton]
      unfold resamplerStep resamplerOnAdd
      rcases p.1.lastTmVal with _ | tv
      · rfl
      · by_cases hlt : e.1 < p.1.nextEmit <;> simp [hlt]
    | cons e'' es'' =>
      have h := ih (resamplerStep p e) (List.cons_ne_nil e'' es'')
      rw [List.getLast_cons (List.cons_ne_nil e'' es'')]
      exact h

/-- C6: the resampler never emits an output record outside the observed input
range — with a non-decreasing input stream every emitted record's timestamp
lies strictly after the first input and no later than the latest input — and
in the spec's Scenario C (interval 1000 ms, `previous` interpolation, inputs
5@0 and 9@1500) the first input alone emits nothing, while processing the
second input emits exactly `(value=5, t=1000)`, computed from the state as it
was before that input is incorporated. -/
theorem resampler_no_extrapolation (interval : Nat) (e0 : Nat × ℚ)
    (es : List (Nat × ℚ)) (hiv : 0 < interval)
    (hord : (e0 :: es).Pairwise (fun a b => a.1 ≤ b.1)) :
    (∀ q ∈ (runResampler interval (e0 :: es)).2,
        e0.1 < q.1 ∧ q.1 ≤ ((e0 :: es).getLast (List.cons_ne_nil e0 es)).1) ∧
    (runResampler 1000 [(0, 5)]).2 = [] ∧
    (resamplerOnAdd (runResampler 1000 [(0, 5)]).1 1500 9).2 = [(1000, 5)] := by
  refine ⟨?_, by decide, by decide⟩
  have hp1 : runResampler interval (e0 :: es)
      = es.foldl resamplerStep
          (⟨interval, some (e0.1, e0.2), e0.1 + interval⟩, []) := by
    unfold runResampler
    rw [List.foldl_cons]
    rfl
  have hinv1 : ResInv e0.1 ((⟨interval, some (e0.1, e0.2), e0.1 + interval⟩, []) :
      ResamplerState × List (Nat × ℚ)) := by
    refine ⟨e0.1, e0.2, rfl, le_refl _, ?_, ?_⟩
    · show e0.1 < e0.1 + interval
      omega
    intro q hq
    cases hq
  have hbound1 : ∀ tl vl,
      ((⟨interval, some (e0.1, e0.2), e0.1 + interval⟩, ([] : List (Nat × ℚ))) :
        ResamplerState × List (Nat × ℚ)).1.lastTmVal = some (tl, vl) →
      ∀ x ∈ es, tl ≤ x.1 := by
    intro tl vl hl x hx
    cases hl
    exact (List.pairwise_cons.mp hord).1 x hx
  have hinv := runResFrom_inv e0.1 es
    (⟨interval, some (e0.1, e0.2), e0.1 + interval⟩, []) hiv hinv1
    (List.pairwise_cons.mp hord).2 hbound1
  rw [hp1]
  obtain ⟨tl, vl, hlast, _, _, hout⟩ := hinv
  cases es with
  | nil =>
    intro q hq
    cases hq
  | cons e'' es'' =>
    intro q hq
    obtain ⟨vl', hlast'⟩ := foldl_lastTm (e'' :: es'')
      (⟨interval, some (e0.1, e0.2), e0.1 + interval⟩, [])
      (List.cons_ne_nil e'' es'')
    rw [hlast'] at hlast
    cases hlast
    rw [List.getLast_cons (List.cons_ne_nil e'' es'')]
    exact hout q hq

/-- Witness for `resampler_no_extrapolation` at the Scenario C inputs. -/
theorem resampler_no_extrapolation_witness :
    (0 < 1000 ∧ (((0, (5 : ℚ)) :: [(1500, (9 : ℚ))]).Pairwise
        (fun a b => a.1 ≤ b.1))) ∧
    ((∀ q ∈ (runResampler 1000 ((0, (5 : ℚ)) :: [(1500, (9 : ℚ))])).2,
        (0 : Nat) < q.1 ∧
        q.1 ≤ (((0, (5 : ℚ)) :: [(1500, (9 : ℚ))]).getLast
          (List.cons_ne_nil _ _)).1) ∧
      (runResampler 1000 [(0, 5)]).2 = [] ∧
      (resamplerOnAdd (runResampler 1000 [(0, 5)]).1 1500 9).2 = [(1000, 5)]) :=
  ⟨⟨by decide, by decide⟩,
   resampler_no_extrapolation 1000 (0, 5) [(1500, 9)] (by decide) (by decide)⟩

/-- Modelled from the spec: an input source of a two-source `stmerger`
aggregate (`StreamAggr_Merger`, implementation not under `src/`). -/
inductive MergerSrc
  | srcA
  | srcB
  deriving DecidableEq, Repr

/-- Modelled from the spec: the merger's per-source pending-interpolation
context (last known `(timestamp, value)` per source, `previous`
interpolation) plus the timestamp of the last emitted output record. -/
structure MergerState where
  lastA : Option (Nat × ℚ)
  lastB : Option (Nat × ℚ)
  lastOutTm : Option Nat
  deriving DecidableEq, Repr

/-- Last known sample of the given source. -/
def srcLast (s : MergerState) (src : MergerSrc) : Option (Nat × ℚ) :=
  match src with
  | .srcA => s.lastA
  | .srcB => s.lastB

/-- Replace the last known sample of the given source. -/
def setSrcLast (s : MergerState) (src : MergerSrc) (tv : Nat × ℚ) : MergerState :=
  match src with
  | .srcA => ⟨some tv, s.lastB, s.lastOutTm⟩
  | .srcB => ⟨s.lastA, some tv, s.lastOutTm⟩

/-- Modelled from the spec: an input record is out of timestamp order when it
precedes its source's last seen timestamp. -/
def outOfOrderB (s : MergerState) (src : MergerSrc) (t : Nat) : Bool :=
  match srcLast s src with
  | some tv => decide (t < tv.1)
  | none => false

/-- Modelled from the spec: the merger processing one input record.  An
out-of-order record is rejected with an error and nothing else happens.
Otherwise the source's context is updated and, once every source has a
sample, a merged record is emitted at the alignment timestamp (the earliest
timestamp all sources cover) provided it advances the output timeline; the
emission guard keeps output timestamps strictly increasing. -/
def stMergerOnAdd (s : MergerState) (src : MergerSrc) (t : Nat) (v : ℚ) :
    Except String (MergerState × List (Nat × ℚ × ℚ)) :=
  if outOfOrderB s src t then .error "out-of-order record" else
  let s1 := setSrcLast s src (t, v)
  match s1.lastA, s1.lastB with
  | some a, some b =>
      let u := min a.1 b.1
      match s1.lastOutTm with
      | none => .ok (⟨s1.lastA, s1.lastB, some u⟩, [(u, a.2, b.2)])
      | some lo =>
          if lo < u then .ok (⟨s1.lastA, s1.lastB, some u⟩, [(u, a.2, b.2)])
          else .ok (s1, [])
  | _, _ => .ok (s1, [])

/-- One merger dispatch: a rejected event leaves the state exactly as if it
had not been delivered; an accepted one appends its emissions. -/
def mergerStep (p : MergerState × List (Nat × ℚ × ℚ))
    (e : MergerSrc × Nat × ℚ) : MergerState × List (Nat × ℚ × ℚ) :=
  match stMergerOnAdd p.1 e.1 e.2.1 e.2.2 with
  | .error _ => p
  | .ok (s', outs) => (s', p.2 ++ outs)

/-- Run a merger over an input stream, collecting every emitted record. -/
def runMerger (es : List (MergerSrc × Nat × ℚ)) :
    MergerState × List (Nat × ℚ × ℚ) :=
  es.foldl mergerStep (⟨none, none, none⟩, [])

/-- Merger invariant: emitted records are strictly increasing in timestamp
and every one of them is bounded by the recorded last output timestamp. -/
def MergerInv (p : MergerState × List (Nat × ℚ × ℚ)) : Prop :=
  List.Chain' (fun a b => a.1 < b.1) p.2 ∧
  ∀ q ∈ p.2, ∃ lo, p.1.lastOutTm = some lo ∧ q.1 ≤ lo

theorem setSrcLast_lastOutTm (s : MergerState) (src : MergerSrc)
    (tv : Nat × ℚ) : (setSrcLast s src tv).lastOutTm = s.lastOutTm := by
  cases src <;> rfl

theorem stMergerOnAdd_ok (s : MergerState) (src : MergerSrc) (t : Nat) (v : ℚ)
    (s' : MergerState) (outs : List (Nat × ℚ × ℚ))
    (h : stMergerOnAdd s src t v = .ok (s', outs)) :
    (outs = [] ∧ s'.lastOutTm = s.lastOutTm) ∨
    (∃ u va vb, outs = [(u, va, vb)] ∧ s'.lastOutTm = some u ∧
      (s.lastOutTm = none ∨ ∃ lo, s.lastOutTm = some lo ∧ lo < u)) := by
  unfold stMergerOnAdd at h
  split at h
  · cases h
  · rename_i hoo
    dsimp only at h
    split at h
    · rename_i a b hA hB
      split at h
      · rename_i hlo
        rcases h with ⟨⟩
        right
        refine ⟨min a.1 b.1, a.2, b.2, rfl, rfl, Or.inl ?_⟩
        rw [← setSrcLast_lastOutTm s src (t, v)]
        exact hlo
      · rename_i lo hlo
        split at h
        · rename_i hlt
          rcases h with ⟨⟩
          right
          refine ⟨min a.1 b.1, a.2, b.2, rfl, rfl, Or.inr ⟨lo, ?_, hlt⟩⟩
          rw [← setSrcLast_lastOutTm s src (t, v)]
          exact hlo
        · rcases h with ⟨⟩
          left
          exact ⟨rfl, setSrcLast_lastOutTm s src (t, v)⟩
    · rcases h with ⟨⟩
      left
      exact ⟨rfl, setSrcLast_lastOutTm s src (t, v)⟩

theorem mergerStep_inv (p : MergerState × List (Nat × ℚ × ℚ))
    (e : MergerSrc × Nat × ℚ) (hinv : MergerInv p) :
    MergerInv (mergerStep p e) := by
  unfold mergerStep
  rcases hres : stMergerOnAdd p.1 e.1 e.2.1 e.2.2 with err | so
  · exact hinv
  · obtain ⟨s', outs⟩ := so
    have hred : (match (Except.ok (s', outs) : Except String
          (MergerState × List (Nat × ℚ × ℚ))) with
        | .error _ => p
        | .ok r => (r.1, p.2 ++ r.2)) = (s', p.2 ++ outs) := rfl
    show MergerInv (match (Except.ok (s', outs) : Except String
        (MergerState × List (Nat × ℚ × ℚ))) with
      | .error _ => p
      | .ok r => (r.1, p.2 ++ r.2))
    rw [hred]
    rcases stMergerOnAdd_ok p.1 e.1 e.2.1 e.2.2 s' outs hres with
      ⟨hnil, hkeep⟩ | ⟨u, va, vb, houts, hnew, hprev⟩
    · subst hnil
      rw [List.append_nil]
      refine ⟨hinv.1, ?_⟩
      intro q hq
      obtain ⟨lo, hlo, hle⟩ := hinv.2 q hq
      refine ⟨lo, ?_, hle⟩
      show s'.lastOutTm = some lo
      rw [hkeep]
      exact hlo
    · subst houts
      have hall : ∀ q ∈ p.2, q.1 < u := by
        intro q hq
        obtain ⟨lo, hlo, hle⟩ := hinv.2 q hq
        rcases hprev with hnone | ⟨lo', hlo', hlt⟩
        · rw [hnone] at hlo; cases hlo
        · rw [hlo'] at hlo
          cases hlo
          omega
      constructor
      · show List.Chain' (fun a b => a.1 < b.1) (p.2 ++ [(u, va, vb)])
        rw [List.chain'_append]
        refine ⟨hinv.1, List.chain'_singleton _, ?_⟩
        intro x hx y hy
        simp only [List.head?_cons, Option.mem_def, Option.some.injEq] at hy
        subst hy
        have hxmem : x ∈ p.2 := List.mem_of_mem_getLast? hx
        exact hall x hxmem
      · intro q hq
        rcases List.mem_append.mp hq with hql | hqr
        · exact ⟨u, hnew, le_of_lt (hall q hql)⟩
        · simp only [List.mem_singleton] at hqr
          subst hqr
          exact ⟨u, hnew, le_refl u⟩

theorem runMerger_inv :
    ∀ (es : List (MergerSrc × Nat × ℚ)) (p : MergerState × List (Nat × ℚ × ℚ)),
      MergerInv p → MergerInv (es.foldl mergerStep p) := by
  intro es
  induction es with
  | nil => intro p h; exact h
  | cons e es' ih => intro p h; exact ih (mergerStep p e) (mergerStep_inv p e h)

/-- C7: merged output records are emitted in strictly increasing
output-timestamp order for every input sequence; an input record arriving out
of timestamp order for its source is rejected with an error — never silently
reordered — and the rejected event leaves the merger state (and the collected
output) exactly as if it had not been delivered. -/
theorem merger_order (es : List (MergerSrc × Nat × ℚ))
    (s : MergerState) (acc : List (Nat × ℚ × ℚ)) (src : MergerSrc)
    (t : Nat) (v : ℚ) (tv : Nat × ℚ)
    (h1 : srcLast s src = some tv) (h2 : t < tv.1) :
    List.Chain' (fun a b => a.1 < b.1) (runMerger es).2 ∧
    stMergerOnAdd s src t v = .error "out-of-order record" ∧
    mergerStep (s, acc) (src, t, v) = (s, acc) := by
  have hoo : outOfOrderB s src t = true := by
    unfold outOfOrderB
    rw [h1]
    simpa using h2
  have herr : stMergerOnAdd s src t v = .error "out-of-order record" := by
    unfold stMergerOnAdd
    rw [hoo]
    rfl
  refine ⟨?_, herr, ?_⟩
  · exact (runMerger_inv es (⟨none, none, none⟩, [])
      ⟨List.chain'_nil, fun q hq => absurd hq (List.not_mem_nil q)⟩).1
  · unfold mergerStep
    rw [show stMergerOnAdd (s, acc).1 (src, t, v).1 (src, t, v).2.1
        (src, t, v).2.2 = .error "out-of-order record" from herr]

/-- Witness for `merger_order`: a concrete run and a concrete out-of-order
rejection. -/
theorem merger_order_witness :
    (srcLast (MergerState.mk (some (1000, (1 : ℚ))) none none) MergerSrc.srcA
        = some (1000, (1 : ℚ)) ∧ (500 : Nat) < (1000, (1 : ℚ)).1) ∧
    (List.Chain' (fun a b => a.1 < b.1)
        (runMerger [(MergerSrc.srcA, 0, (1 : ℚ)), (MergerSrc.srcB, 500, 2),
          (MergerSrc.srcA, 1000, 3)]).2 ∧
      stMergerOnAdd (MergerState.mk (some (1000, (1 : ℚ))) none none)
          MergerSrc.srcA 500 2 = .error "out-of-order record" ∧
      mergerStep (MergerState.mk (some (1000, (1 : ℚ))) none none, [])
          (MergerSrc.srcA, 500, 2)
        = (MergerState.mk (some (1000, (1 : ℚ))) none none, [])) :=
  ⟨⟨by decide, by decide⟩,
   merger_order [(MergerSrc.srcA, 0, 1), (MergerSrc.srcB, 500, 2),
     (MergerSrc.srcA, 1000, 3)]
     (MergerState.mk (some (1000, 1)) none none) [] MergerSrc.srcA 500 2
     (1000, 1) (by decide) (by decide)⟩

/-- Modelled from the spec: one token of the byte-layout-independent
persistence stream written by `save` (`TNodeJsSA::save` forwards to the
aggregate's `_Save`, whose implementation is not under `src/`). -/
inductive SATok
  | tNat (n : Nat)
  | tRat (q : ℚ)
  deriving DecidableEq, Repr

/-- A persistable aggregate node state: a WindowBuffer or a MovingAverage. -/
inductive SavedAggr
  | winBuf (s : WinBufState)
  | ma (m : MaState)
  deriving DecidableEq, Repr

/-- Serialise window entries in order. -/
def encEntries : List (Nat × ℚ) → List SATok
  | [] => []
  | e :: t => .tNat e.1 :: .tRat e.2 :: encEntries t

/-- Parse back `n` window entries, returning the rest of the stream. -/
def decEntries : Nat → List SATok → Option (List (Nat × ℚ) × List SATok)
  | 0, toks => some ([], toks)
  | n + 1, .tNat t :: .tRat v :: rest =>
      (decEntries n rest).map (fun p => ((t, v) :: p.1, p.2))
  | _ + 1, _ => none

/-- Modelled from the spec: `save(stream)` writes the node's type tag
followed by its internal state in a stable order. -/
def saveAggr : SavedAggr → List SATok
  | .winBuf s => .tNat 0 :: .tNat s.winSizeMSecs :: .tNat s.entries.length ::
      encEntries s.entries
  | .ma m => [.tNat 1, .tRat m.maSum, .tNat m.maCount]

/-- Modelled from the spec: `load(stream)` reconstructs the node's internal
state; a type tag mismatch or a truncated stream is a `PersistenceError`. -/
def loadAggr : List SATok → Except String SavedAggr
  | .tNat 0 :: .tNat w :: .tNat n :: rest =>
      match decEntries n rest with
      | some (l, []) => .ok (.winBuf ⟨w, l⟩)
      | _ => .error "truncated stream"
  | [.tNat 1, .tRat s, .tNat c] => .ok (.ma ⟨s, c⟩)
  | _ => .error "type tag mismatch"

theorem decEntries_encEntries :
    ∀ (l : List (Nat × ℚ)) (rest : List SATok),
      decEntries l.length (encEntries l ++ rest) = some (l, rest) := by
  intro l
  induction l with
  | nil => intro rest; rfl
  | cons e t ih =>
    intro rest
    show decEntries (t.length + 1)
        (SATok.tNat e.1 :: SATok.tRat e.2 :: (encEntries t ++ rest))
      = some (e :: t, rest)
    unfold decEntries
    rw [ih rest]
    rfl

/-- C8: `load(save(node))` reconstructs exactly the saved internal state, for
every modelled node kind and every reachable state; since the reconstructed
state is equal, every subsequent query result of every advertised interface
(`getFloatVector`, `getTimestampVector`, `getNumberOfRecords`, `getFloatAt`,
`maGetFloat`, ...) is identical to the pre-save node's. -/
theorem save_load_roundtrip (nd : SavedAggr) :
    loadAggr (saveAggr nd) = Except.ok nd := by
  cases nd with
  | winBuf s =>
    have h := decEntries_encEntries s.entries []
    rw [List.append_nil] at h
    show loadAggr (.tNat 0 :: .tNat s.winSizeMSecs :: .tNat s.entries.length ::
      encEntries s.entries) = Except.ok (.winBuf s)
    simp only [loadAggr]
    rw [h]
  | ma m => rfl

/-- The closed set of capability interfaces of `TQm::TStreamAggrOut` that the
binding layer can advertise (`IFltTmIO` is written `iFltTmInOut` here). -/
inductive CapabilityInterface
  | iInt
  | iFlt
  | iTm
  | iFltTmInOut
  | iFltVec
  | iTmVec
  | iNmFlt
  | iNmInt
  | iFltTm
  | iFltVecTm
  deriving DecidableEq, Repr

/-- Presence flags of the optional JavaScript callbacks an externally
supplied aggregator object may define, mirroring the persistent function
handles of `TNodeJsStreamAggr` (header lines 1411-1446). -/
structure TNodeJsStreamAggrCallbacks where
  onAddFun : Bool
  onUpdateFun : Bool
  onDeleteFun : Bool
  saveJsonFun : Bool
  getIntFun : Bool
  getFltFun : Bool
  getTmMSecsFun : Bool
  getInFltFun : Bool
  getInTmMSecsFun : Bool
  getOutFltVFun : Bool
  getOutTmMSecsVFun : Bool
  getNFun : Bool
  getFltLenFun : Bool
  getFltAtFun : Bool
  getFltVFun : Bool
  getTmLenFun : Bool
  getTmAtFun : Bool
  getTmVFun : Bool
  isNmFltFun : Bool
  getNmFltFun : Bool
  getNmFltVFun : Bool
  isNmFun : Bool
  getNmIntFun : Bool
  getNmIntVFun : Bool
  saveFun : Bool
  loadFun : Bool
  deriving DecidableEq, Repr

/-- The capability set `TNodeJsStreamAggr` advertises, read off the class's
base-class list (header lines 1395-1408): it publicly derives from `IInt`,
`IFltTmIO`, `IFltVec`, `ITmVec`, `INmFlt`, `INmInt` and `IFltTm`, while the
`IFlt`, `ITm` and `IFltVecTm` bases are commented out.  C++ inheritance is
static, so the result ignores the supplied callback object entirely and can
never change after construction. -/
def TNodeJsStreamAggrImplements (_cb : TNodeJsStreamAggrCallbacks) :
    CapabilityInterface → Bool := fun c =>
  match c with
  | .iInt => true
  | .iFlt => false
  | .iTm => false
  | .iFltTmInOut => true
  | .iFltVec => true
  | .iTmVec => true
  | .iNmFlt => true
  | .iNmInt => true
  | .iFltTm => true
  | .iFltVecTm => false

/-- C9: the JavaScript-callback bridge statically advertises exactly the
capability set `{IInt, IFltTmIO, IFltVec, ITmVec, INmFlt, INmInt, IFltTm}`
for every externally supplied callback object — in particular not the
standalone `IFlt` or `ITm` — and the advertised set does not depend on which
callbacks the object defines. -/
theorem bridge_capability_set (cb : TNodeJsStreamAggrCallbacks)
    (c : CapabilityInterface) :
    (TNodeJsStreamAggrImplements cb c = true ↔
      c ∈ [CapabilityInterface.iInt, CapabilityInterface.iFltTmInOut,
        CapabilityInterface.iFltVec, CapabilityInterface.iTmVec,
        CapabilityInterface.iNmFlt, CapabilityInterface.iNmInt,
        CapabilityInterface.iFltTm]) ∧
    TNodeJsStreamAggrImplements cb CapabilityInterface.iFlt = false ∧
    TNodeJsStreamAggrImplements cb CapabilityInterface.iTm = false ∧
    ∀ cb' : TNodeJsStreamAggrCallbacks,
      TNodeJsStreamAggrImplements cb' c = TNodeJsStreamAggrImplements cb c := by
  cases c <;> exact ⟨by simp [TNodeJsStreamAggrImplements], rfl, rfl,
    fun cb' => rfl⟩

/-- The binding object `TNodeJsSA` wrapping a stream aggregate, abstracted
over the JSON value type it reports: `saveJson` forwards its numeric `limit`
to the wrapped aggregate's `SaveJson`.  Modelled from the spec: the header
documents the property as `objJSON = sa.val -- same as sa.saveJson(-1)`
(line 1385); the binding implementation itself is not under `src/`. -/
structure TNodeJsSA (α : Type) where
  SA_SaveJson : ℤ → α

/-- `sa.saveJson(limit)`: forwards the limit verbatim. -/
def saveJson {α : Type} (sa : TNodeJsSA α) (limit : ℤ) : α :=
  sa.SA_SaveJson limit

/-- `sa.val`: the property accessor, `saveJson` applied to the limit `-1`. -/
def val {α : Type} (sa : TNodeJsSA α) : α :=
  sa.SA_SaveJson (-1)

/-- C10: for every stream aggregate, reading the `val` property returns the
same JSON object as calling `saveJson(-1)`: the accessor is definitionally
`saveJson` at limit `-1`. -/
theorem val_eq_saveJson {α : Type} (sa : TNodeJsSA α) :
    val sa = saveJson sa (-1) := rfl

end QMiner
